import Mathlib

/-!
Verification of the `tiny_stl` deque (`include/deque.hpp`), its iterator
arithmetic, the uninitialized-memory algorithms (`include/memory.hpp`) and the
iterator utilities (`include/iterator.hpp`), against the repository's
natural-language specification.

The C++ sources are shallowly embedded:

* `TinyStl.DIter` models a `__deque_iterator<T, buffer>` by the index of its
  map slot (`node`, the pointer into the control map) and the offset
  `cur - first` of its current pointer into its buffer.  `first` and `last`
  are determined by the node (`first = *node`, `last = first + buffer`), so
  `cur - first` and `last - cur = buffer - (cur - first)` carry all the
  information the arithmetic operators use.
* `TinyStl.Deque.DQ` models the container `deque<T, Alloc, buffer>`: the
  control map is a size-`mapSize` array of buffer ids (a function on slot
  indices), the heap of buffers is a function from buffer id and offset to
  the slot contents (`none` = unconstructed / garbage), and `_begin`/`_end`
  are (node index, offset `cur - first`) pairs.
* `TinyStl.RawIter` keeps the four raw pointer fields of the iterator as
  integer addresses; it is used where null (default-constructed) iterators
  matter, because there `cur - first` and `last - cur` are `0` rather than
  being tied to `buffer`.
* `TinyStl.Memory` embeds `uninitialized_copy` / `uninitialized_fill_n` over a
  destination modeled as a `List (Option β)` (`none` = unconstructed slot);
  a construction attempt that may throw is modeled by an `Option`-valued
  constructor, and the C++ `try`/`catch`-rethrow by `Except`, whose `error`
  payload is the memory as the caller observes it after unwinding.
-/

namespace TinyStl

/-! ## Definitions

### The deque iterator: `__deque_iterator<T, buffer>` (deque.hpp)

`DIter` is the arithmetic view of an iterator: `node` is the index of its map
slot, `off = cur - first ∈ [0, buffer]` the position of `cur` inside its
buffer.  All fields of the C++ struct are recoverable: `first = *node`,
`last = first + B`, `cur = first + off`. -/

structure DIter where
  node : ℤ
  off : ℤ
deriving DecidableEq

/-- The logical position an iterator denotes, counting the whole map as one
flat array of `B`-element buffers.  (Specification device, not source code.) -/
def DIter.pos (B : ℤ) (it : DIter) : ℤ := B * it.node + it.off

/-- An iterator whose `cur` lies strictly inside `[first, last)`, i.e. a
normalized, dereferenceable iterator. -/
def DIter.valid (B : ℤ) (it : DIter) : Prop := 0 ≤ it.off ∧ it.off < B

instance (B : ℤ) (it : DIter) : Decidable (it.valid B) := by
  unfold DIter.valid; infer_instance

/-- Model of `operator++` (deque.hpp:115-122): `cur++; if (cur == last) {
set_node(node + 1); cur = first; }`.  `cur == last` is `off + 1 = B`. -/
def iterSucc (B : ℤ) (it : DIter) : DIter :=
  if it.off + 1 = B then ⟨it.node + 1, 0⟩ else ⟨it.node, it.off + 1⟩

/-- Model of `operator--` (deque.hpp:138-145): `if (cur == first) { set_node(node - 1);
cur = last; } cur--;`. -/
def iterPred (B : ℤ) (it : DIter) : DIter :=
  if it.off = 0 then ⟨it.node - 1, B - 1⟩ else ⟨it.node, it.off - 1⟩

/-- Model of `operator-(const self& x)` (deque.hpp:106-109), `this - x`:
`difference_type(buffer_size()) * (node - x.node - 1) + (cur - first) +
(x.last - x.cur)`.  Here `cur - first = off` of `this` and
`x.last - x.cur = B - x.off`. -/
def iterSub (B : ℤ) (a x : DIter) : ℤ :=
  B * (a.node - x.node - 1) + a.off + (B - x.off)

/-- The subtraction formula exactly as the specification writes it for
`it_b - it_a`: `buffer_size * (node_b - node_a - 1) + (cur_a - first_a) +
(last_b - cur_b)`.  Modelled from the spec's words (the code's `operator-`
puts `cur - first` of the left operand `it_b` and `last - cur` of the right
operand `it_a` instead). -/
def specSub (B : ℤ) (b a : DIter) : ℤ :=
  B * (b.node - a.node - 1) + a.off + (B - b.off)

/-- Model of `operator+=(difference_type n)` (deque.hpp:162-174).  The divisions are
C++ `difference_type` divisions truncating toward zero, i.e. `Int.tdiv`; in
the negative branch `-offset - 1 ≥ 0` is divided by the (unsigned) buffer
size. -/
def iterAdd (B : ℤ) (it : DIter) (n : ℤ) : DIter :=
  let offset := n + it.off
  if 0 ≤ offset ∧ offset ≤ B then
    ⟨it.node, offset⟩
  else
    let node_offset :=
      if 0 < offset then Int.tdiv offset B else -(Int.tdiv (-offset - 1) B) - 1
    ⟨it.node + node_offset, offset - node_offset * B⟩

/-! ### `advance` (iterator.hpp:340-347) and its helpers (iterator.hpp:271-328)

The C++ declarations are
`template <typename InputIterator, typename Distance> void advance(InputIterator it, Distance n)`
and three overloads
`void advance_aux(Iterator it, Distance n, tag)`.
Every one of them receives the iterator **by value** and returns `void`, so
the `it += n` (random-access overload) and the `++it`/`--it` loops
(input/bidirectional overloads) act on local copies that are discarded when
the call returns.  We model the random-access instantiation (e.g. `int*`),
with the iterator as an integer address:
`advance_aux_random_access` is the value of `advance_aux`'s local copy after
`it += n`, and `advance` is the value the **caller's** variable holds after
the call — unchanged, since the callee only received a copy. -/

/-- The local copy inside `advance_aux(it, n, random_access_iterator_tag)`
after `it += n` (iterator.hpp:321-328). -/
def advance_aux_random_access (it n : ℤ) : ℤ := it + n

/-- The caller's iterator after `advance(it, n)` (iterator.hpp:340-347):
the callee mutates only its by-value copies, so the caller's variable is
unchanged. -/
def advance (it n : ℤ) : ℤ :=
  let _localCopy := advance_aux_random_access it n
  it

/-! ### Null-pointer iterators, move construction, and `size()` (deque.hpp)

`RawIter` keeps the iterator's four pointer members as integer addresses,
exactly as `__deque_iterator` stores them.  The default constructor
(deque.hpp:80) sets all four to `nullptr` (address `0`).  The move
constructor of `deque` (deque.hpp:314-319) copies the four members into the
new deque and resets the source to default iterators, a null map, and map
size `0`.  `size()` (deque.hpp:434) returns `_end - _begin` converted to the
unsigned `size_type`; on a 64-bit platform that conversion is reduction
modulo `2 ^ 64`. -/

structure RawIter where
  cur : ℤ
  first : ℤ
  last : ℤ
  node : ℤ
deriving DecidableEq

/-- Model of `__deque_iterator()` (deque.hpp:80): all four pointers `nullptr`. -/
def RawIter.default : RawIter := ⟨0, 0, 0, 0⟩

/-- Model of `operator-(const self& x)` (deque.hpp:106-109) on the raw pointer fields:
`buffer_size() * (node - x.node - 1) + (cur - first) + (x.last - x.cur)`. -/
def rawSub (B : ℤ) (a x : RawIter) : ℤ :=
  B * (a.node - x.node - 1) + (a.cur - a.first) + (x.last - x.cur)

/-- Model of `operator==` (deque.hpp:215): compares only the `cur` pointers. -/
def rawEq (a x : RawIter) : Prop := a.cur = x.cur

instance (a x : RawIter) : Decidable (rawEq a x) := by
  unfold rawEq; infer_instance

structure RawDeque where
  bIt : RawIter
  eIt : RawIter
  mapAddr : ℤ
  mapSize : ℕ
deriving DecidableEq

/-- Model of `deque(deque&& other)` (deque.hpp:314-319): the new deque copies
`_begin`, `_end`, `_map`, `_map_size`; the source gets default iterators, a
null map and map size `0`.  Returns (new deque, moved-from source). -/
def moveConstruct (other : RawDeque) : RawDeque × RawDeque :=
  (⟨other.bIt, other.eIt, other.mapAddr, other.mapSize⟩,
    ⟨RawIter.default, RawIter.default, 0, 0⟩)

/-- Model of `size()` (deque.hpp:434): `_end - _begin`, a signed `difference_type`,
converted to the unsigned `size_type` (64-bit): reduction mod `2 ^ 64`. -/
def RawDeque.sizeRD (B : ℤ) (d : RawDeque) : ℤ :=
  Int.emod (rawSub B d.eIt d.bIt) (2 ^ 64)

/-- Model of `empty()` (deque.hpp:446): `_end == _begin`, i.e. equal `cur` pointers. -/
def RawDeque.emptyRD (d : RawDeque) : Prop := rawEq d.eIt d.bIt

instance (d : RawDeque) : Decidable d.emptyRD := by
  unfold RawDeque.emptyRD; infer_instance

/-! ### Uninitialized-memory algorithms (memory.hpp)

The destination range is a `List (Option β)`: `none` is an unconstructed
(raw) slot, `some b` a constructed object.  A construction attempt is an
`Option β`: `none` models the constructor throwing.  For
`uninitialized_copy` the constructor is applied to the source element
(`f : α → Option β`, modelling `construct_at(&*current, *first)`); for
`uninitialized_fill_n` the `i`-th copy-construction of `value` is the oracle
`g i` (modelling `construct_at(&*current, value)`, whose success may vary by
attempt).  The `try`/`catch` that destroys `[d_first, current)` and rethrows
(memory.hpp:102-110, 176-184) becomes an `Except` whose `error` payload is
the memory after the `catch` block ran. -/

namespace Memory

variable {α β : Type}

/-- Model of `destroy(first, last)` (memory.hpp:64-69) over `n = last - first` slots
starting at `p = first`: each slot reverts to unconstructed, in forward
order. -/
def destroyN : ℕ → List (Option β) → ℕ → List (Option β)
  | 0, mem, _ => mem
  | n + 1, mem, p => destroyN n (mem.set p none) (p + 1)

/-- Writing a list of constructed objects at consecutive slots from `p`:
the cumulative effect of the successful `construct_at` calls.
(Specification device used to state the algorithms' results.) -/
def writeN : List β → List (Option β) → ℕ → List (Option β)
  | [], mem, _ => mem
  | b :: bs, mem, p => writeN bs (mem.set p (some b)) (p + 1)

/-- Sequencing the construction attempts: `some bs` if every attempt
succeeds, `none` as soon as one throws.  (Specification device.) -/
def mapOpt (f : α → Option β) : List α → Option (List β)
  | [] => some []
  | a :: l =>
    match f a with
    | none => none
    | some b => (mapOpt f l).map (fun bs => b :: bs)

/-- Model of `uninitialized_copy(first, last, d_first)` (memory.hpp:99-111).  The
source range is `src`, the destination starts at slot `cur` (initially
`d_first = d`); on a construction failure the already-constructed prefix
`[d_first, current)` is destroyed and the failure re-signaled with the
resulting memory. -/
def uninitialized_copy (f : α → Option β) :
    List α → List (Option β) → ℕ → ℕ → Except (List (Option β)) (List (Option β) × ℕ)
  | [], mem, _, cur => .ok (mem, cur)
  | a :: rest, mem, d_first, cur =>
    match f a with
    | some b => uninitialized_copy f rest (mem.set cur (some b)) d_first (cur + 1)
    | none => .error (destroyN (cur - d_first) mem d_first)

/-- Model of `uninitialized_fill_n(first, count, value)` (memory.hpp:173-185). The
`i`-th construction of `value` is the oracle `g i`; on a failure the
constructed prefix `[first, current)` is destroyed and the failure
re-signaled. -/
def uninitialized_fill_n (g : ℕ → Option β) :
    ℕ → List (Option β) → ℕ → ℕ → Except (List (Option β)) (List (Option β) × ℕ)
  | 0, mem, _, cur => .ok (mem, cur)
  | n + 1, mem, first, cur =>
    match g (cur - first) with
    | some b => uninitialized_fill_n g n (mem.set cur (some b)) first (cur + 1)
    | none => .error (destroyN (cur - first) mem first)

end Memory

/-! ### The container: `deque<T, Alloc, buffer>` (deque.hpp)

`DQ` holds the container state.  Raw pointers are replaced by ids and
indices: the control map `_map` is `map : ℕ → ℕ` on slot indices `< mapSize`
(slots outside the ranges ever written hold garbage), each buffer is named by
an allocation id (`allocate_node` hands out `nextBuf`, the next fresh id, as
`operator new` hands out fresh addresses), and a buffer's contents are
`bufs id : ℕ → Option α` with `none` for an unconstructed slot (fresh
allocations are uninitialized, i.e. all `none`).  The boundary iterators are
`(bNode, bCur)` and `(eNode, eCur)` — map-slot index and `cur - first`
offset; their `first`/`last` members always equal `*node` and
`*node + buffer` because every mutation of `node` in the source goes through
`set_node`.  A `cur` pointer is the pair (buffer id, offset):
two `cur` pointers are equal iff buffer id and offset agree, since distinct
heap allocations are disjoint. -/

namespace Deque

variable {α : Type}

structure DQ (α : Type) where
  mapSize : ℕ
  map : ℕ → ℕ
  nextBuf : ℕ
  bufs : ℕ → ℕ → Option α
  bNode : ℕ
  bCur : ℕ
  eNode : ℕ
  eCur : ℕ

/-- Model of `allocate_node()` (deque.hpp:604-606): `alloc.allocate(buffer)` returns a
fresh, uninitialized buffer; the model hands out the next fresh id. -/
def allocate_node (d : DQ α) : DQ α × ℕ :=
  ({ d with
      nextBuf := d.nextBuf + 1
      bufs := fun b => if b = d.nextBuf then (fun _ => none) else d.bufs b },
    d.nextBuf)

/-- Model of `alloc.construct(p, value)` (allocator.hpp:84-88) at the pointer
(buffer id `bid`, offset `off`); also models the plain assignment
`*dest = *src` of the copy loops, which writes the same slot. -/
def constructAt (d : DQ α) (bid off : ℕ) (v : α) : DQ α :=
  { d with
      bufs := fun b =>
        if b = bid then (fun j => if j = off then some v else d.bufs b j)
        else d.bufs b }

/-- Model of `alloc.destroy(p)` (allocator.hpp:93-97): the slot reverts to
unconstructed. -/
def destroyAt (d : DQ α) (bid off : ℕ) : DQ α :=
  { d with
      bufs := fun b =>
        if b = bid then (fun j => if j = off then none else d.bufs b j)
        else d.bufs b }

/-- Model of `deallocate_node(p)` (deque.hpp:612-614): the buffer's storage is
released, its contents become indeterminate (all `none` in the model).
(`pop_back`/`pop_front` pass `_end.node`/`_begin.node` where a buffer
pointer `T*` is expected — deque.hpp:501,517 — while `clear`
(deque.hpp:534,543) passes the dereferenced `*node`; we model the
evidently intended buffer `*node`, i.e. `d.map node`.) -/
def deallocate_node (d : DQ α) (bid : ℕ) : DQ α :=
  { d with bufs := fun b => if b = bid then (fun _ => none) else d.bufs b }

/-- Model of `reallocate_map(nodes_to_add, add_at_front)` (deque.hpp:632-656).  Both
the in-place `std::copy`/`std::copy_backward` shift and the grow-and-copy
path move the active slots `[bNode, eNode]` to start at `new_nstart`; in the
grow path the remaining slots of the fresh map are uninitialized (garbage,
modeled as id `0` — never read).  `set_node` updates both boundary
iterators' nodes, keeping their `cur` offsets. -/
def reallocate_map (d : DQ α) (nodes_to_add : ℕ) (add_at_front : Bool) : DQ α :=
  let old_num_nodes := d.eNode - d.bNode + 1
  let new_num_nodes := old_num_nodes + nodes_to_add
  if d.mapSize > 2 * new_num_nodes then
    let new_nstart :=
      (d.mapSize - new_num_nodes) / 2 + (if add_at_front then nodes_to_add else 0)
    { d with
        map := fun k =>
          if new_nstart ≤ k ∧ k < new_nstart + old_num_nodes
          then d.map (d.bNode + (k - new_nstart)) else d.map k
        bNode := new_nstart
        eNode := new_nstart + old_num_nodes - 1 }
  else
    let new_map_size := d.mapSize + max d.mapSize nodes_to_add + 2
    let new_nstart :=
      (new_map_size - new_num_nodes) / 2 + (if add_at_front then nodes_to_add else 0)
    { d with
        mapSize := new_map_size
        map := fun k =>
          if new_nstart ≤ k ∧ k < new_nstart + old_num_nodes
          then d.map (d.bNode + (k - new_nstart)) else 0
        bNode := new_nstart
        eNode := new_nstart + old_num_nodes - 1 }

/-- Model of `reserve_map_at_back(nodes_to_add = 1)` (deque.hpp:661-665):
`nodes_to_add > _map_size - (_end.node - _map)`. -/
def reserve_map_at_back (d : DQ α) (nodes_to_add : ℕ) : DQ α :=
  if nodes_to_add > d.mapSize - d.eNode then reallocate_map d nodes_to_add false
  else d

/-- Model of `reserve_map_at_front(nodes_to_add = 1)` (deque.hpp:670-674):
`nodes_to_add > _begin.node - _map`. -/
def reserve_map_at_front (d : DQ α) (nodes_to_add : ℕ) : DQ α :=
  if nodes_to_add > d.bNode then reallocate_map d nodes_to_add true
  else d

/-- Model of `push_back(value)` (deque.hpp:452-470) with buffer size `B`.  The fast
path (`_end.cur != _end.last - 1`) constructs at `_end.cur` and increments
it.  Otherwise it constructs in the buffer's final slot, grows the map if
`_end.node + 1` is past it, allocates a fresh buffer in slot `_end.node + 1`
and moves `_end` to its first slot. -/
def push_back (B : ℕ) (d : DQ α) (value : α) : DQ α :=
  if d.eCur ≠ B - 1 then
    let d1 := constructAt d (d.map d.eNode) d.eCur value
    { d1 with eCur := d1.eCur + 1 }
  else
    let d1 := constructAt d (d.map d.eNode) d.eCur value
    let d2 := if d1.eNode + 1 = d1.mapSize then reallocate_map d1 1 false else d1
    let d3 := reserve_map_at_back d2 1
    let p := allocate_node d3
    { p.1 with
        map := fun k => if k = p.1.eNode + 1 then p.2 else p.1.map k
        eNode := p.1.eNode + 1
        eCur := 0 }

/-- Model of `push_front(value)` (deque.hpp:476-489) with buffer size `B`. -/
def push_front (B : ℕ) (d : DQ α) (value : α) : DQ α :=
  if d.bCur = 0 then
    let d1 := if d.bNode = 0 then reallocate_map d 1 true else d
    let d2 := reserve_map_at_front d1 1
    let p := allocate_node d2
    let d3 :=
      { p.1 with
          map := fun k => if k = p.1.bNode - 1 then p.2 else p.1.map k
          bNode := p.1.bNode - 1
          bCur := B - 1 }
    constructAt d3 (d3.map d3.bNode) d3.bCur value
  else
    let d1 := { d with bCur := d.bCur - 1 }
    constructAt d1 (d1.map d1.bNode) d1.bCur value

/-- Model of `empty()` (deque.hpp:446): `_end == _begin`, comparing `cur` pointers,
i.e. buffer id and offset. -/
def emptyD (d : DQ α) : Prop :=
  d.map d.eNode = d.map d.bNode ∧ d.eCur = d.bCur

instance (d : DQ α) : Decidable (emptyD d) := by
  unfold emptyD; infer_instance

/-- Model of `pop_back()` (deque.hpp:494-508) with buffer size `B`.  Outside the
`!empty()` guard nothing happens.  The fast path decrements `_end.cur` and
destroys there.  The buffer-crossing path deallocates `_end`'s (empty)
buffer, moves to the previous node, destroys the element at `last - 1`, and
then sets `_end.cur = _end.last` (deque.hpp:505), i.e. offset `B`. -/
def pop_back (B : ℕ) (d : DQ α) : DQ α :=
  if emptyD d then d
  else if d.eCur ≠ 0 then
    let d1 := { d with eCur := d.eCur - 1 }
    destroyAt d1 (d1.map d1.eNode) d1.eCur
  else
    let d1 := deallocate_node d (d.map d.eNode)
    let d2 := { d1 with eNode := d1.eNode - 1, eCur := B - 1 }
    let d3 := destroyAt d2 (d2.map d2.eNode) d2.eCur
    { d3 with eCur := B }

/-- Model of `pop_front()` (deque.hpp:513-524) with buffer size `B`. -/
def pop_front (B : ℕ) (d : DQ α) : DQ α :=
  if emptyD d then d
  else
    let d1 := destroyAt d (d.map d.bNode) d.bCur
    if d1.bCur = B - 1 then
      let d2 := deallocate_node d1 (d1.map d1.bNode)
      { d2 with bNode := d2.bNode + 1, bCur := 0 }
    else { d1 with bCur := d1.bCur + 1 }

/-- Model of `size()` (deque.hpp:434): `_end - _begin` through `operator-`
(deque.hpp:106-109), as the signed `difference_type` value:
`B * (eNode - bNode - 1) + (eCur - 0) + (B - bCur)` since
`cur - first = eCur` for `_end` and `last - cur = B - bCur` for `_begin`. -/
def sizeD (B : ℕ) (d : DQ α) : ℤ :=
  (B : ℤ) * ((d.eNode : ℤ) - (d.bNode : ℤ) - 1) + (d.eCur : ℤ) +
    ((B : ℤ) - (d.bCur : ℤ))

/-- Model of `initialize_map_and_nodes(num_elements)` (deque.hpp:564-580) with buffer
size `B`: `num_nodes = n / B + 1`, `map_size = max(8, num_nodes + 2)`, the
active nodes centered from `nstart = (map_size - num_nodes) / 2`;
`create_nodes` allocates one fresh buffer per active slot (ids `0,1,...` in
order from a fresh allocator); `_begin = (nstart, 0)`,
`_end = (nstart + num_nodes - 1, n % B)`. -/
def initialize_map_and_nodes (B : ℕ) (num_elements : ℕ) : DQ α :=
  let num_nodes := num_elements / B + 1
  let ms := max 8 (num_nodes + 2)
  let nstart := (ms - num_nodes) / 2
  { mapSize := ms
    map := fun k => if nstart ≤ k ∧ k < nstart + num_nodes then k - nstart else 0
    nextBuf := num_nodes
    bufs := fun _ _ => none
    bNode := nstart
    bCur := 0
    eNode := nstart + num_nodes - 1
    eCur := num_elements % B }

/-- Model of `operator++` (deque.hpp:115-122) on a container iterator
(node index, offset): cross to the next slot when `cur` reaches `last`. -/
def succIt (B : ℕ) (it : ℕ × ℕ) : ℕ × ℕ :=
  if it.2 + 1 = B then (it.1 + 1, 0) else (it.1, it.2 + 1)

/-- Model of `operator+(n)` via `operator+=` (deque.hpp:162-174,181-184) for a
non-negative `n` on a normalized iterator: `offset = (cur - first) + n ≥ 0`,
fast path when `offset <= B`, otherwise `node += offset / B`,
`cur = first + offset % B` (for positive `offset` the C++ truncating
division is ℕ division). -/
def addIt (B : ℕ) (it : ℕ × ℕ) (n : ℕ) : ℕ × ℕ :=
  let offset := it.2 + n
  if offset ≤ B then (it.1, offset) else (it.1 + offset / B, offset % B)

/-- Dereferencing `*it` (deque.hpp:93): read the slot `cur` points at,
through the map. -/
def readIt (d : DQ α) (it : ℕ × ℕ) : Option α := d.bufs (d.map it.1) it.2

/-- Model of `operator[](n)` (deque.hpp:410-412): `_begin[n] = *(_begin + n)`. -/
def nthD (B : ℕ) (d : DQ α) (n : ℕ) : Option α :=
  readIt d (addIt B (d.bNode, d.bCur) n)

/-- Model of `back()` (deque.hpp:426-428): `*(_end - 1)`, via `operator-=` →
`operator+=(-1)`: for `eCur ≥ 1` the offset `eCur - 1` lies in `[0, B]`
(fast path); for `eCur = 0` the offset is `-1`, so
`node_offset = -((1 - 1) / B) - 1 = -1` and `cur = first + (B - 1)` in the
previous buffer. -/
def backD (B : ℕ) (d : DQ α) : Option α :=
  readIt d (if 1 ≤ d.eCur then (d.eNode, d.eCur - 1) else (d.eNode - 1, B - 1))

/-- The copy loop of the range constructor (deque.hpp:341-344):
`for (src = first; src != last; ++src, ++dest) *dest = *src;` starting at
iterator `it`. -/
def writeLoop (B : ℕ) : List α → DQ α → ℕ × ℕ → DQ α
  | [], d, _ => d
  | x :: rest, d, it => writeLoop B rest (constructAt d (d.map it.1) it.2 x) (succIt B it)

/-- Model of `deque(InputIterator first, InputIterator last)` (deque.hpp:327-345):
count the range, `initialize_map_and_nodes`, then copy into `[begin, end)`
stepping with `operator++`. -/
def deque_from_range (B : ℕ) (src : List α) : DQ α :=
  let d := initialize_map_and_nodes B src.length
  writeLoop B src d (d.bNode, d.bCur)

/-- Flat logical address of an iterator position.  (Specification device.) -/
def posP (B : ℕ) (it : ℕ × ℕ) : ℕ := it.1 * B + it.2

/-- Read the slot at flat logical address `q` (node `q / B`, offset `q % B`)
through the map.  (Specification device.) -/
def readPos (B : ℕ) (d : DQ α) (q : ℕ) : Option α := d.bufs (d.map (q / B)) (q % B)

/-- The raw `cur` pointer of a container iterator: (buffer id, offset). -/
def curAddr (d : DQ α) (it : ℕ × ℕ) : ℕ × ℕ := (d.map it.1, it.2)

/-- The read loop `for (it = begin; it != end; ++it) ... *it ...`
(as in the copy constructor, deque.hpp:305-307): compare against `_end` by
`operator!=` (on `cur` pointers), read, step with `operator++`.  `fuel`
bounds the recursion; it is instantiated with the deque's size. -/
def collectGo (B : ℕ) (d : DQ α) : ℕ → ℕ × ℕ → List (Option α)
  | 0, _ => []
  | fuel + 1, it =>
    if curAddr d it = curAddr d (d.eNode, d.eCur) then []
    else readIt d it :: collectGo B d fuel (succIt B it)

/-- The number of positions from `_begin` to `_end`.
(Specification device.) -/
def countD (B : ℕ) (d : DQ α) : ℕ := posP B (d.eNode, d.eCur) - posP B (d.bNode, d.bCur)

/-- Iterating `begin() .. end()` and collecting every dereferenced slot. -/
def iterCollect (B : ℕ) (d : DQ α) : List (Option α) :=
  collectGo B d (countD B d) (d.bNode, d.bCur)

/-- Concrete trace for `operator[]` at a buffer boundary: buffer size `2`,
default-constructed deque, then `push_back 10, 20, 30, 40`. -/
def traceIndex : DQ ℕ :=
  push_back 2 (push_back 2 (push_back 2 (push_back 2
    (initialize_map_and_nodes 2 0) 10) 20) 30) 40

/-- Concrete trace for the `pop_back` buffer-crossing branch: buffer size
`2`, `push_back 10, 20` (filling the first buffer exactly), then
`pop_back`. -/
def tracePop : DQ ℕ :=
  pop_back 2 (push_back 2 (push_back 2 (initialize_map_and_nodes 2 0) 10) 20)

end Deque

/-! ## Lemmas and theorems -/

lemma iterSub_eq_pos_sub (B : ℤ) (a x : DIter) :
    iterSub B a x = a.pos B - x.pos B := by
  unfold iterSub DIter.pos; ring

lemma iterSucc_pos (B : ℤ) (it : DIter) :
    (iterSucc B it).pos B = it.pos B + 1 := by
  unfold iterSucc DIter.pos
  split <;> rename_i h
  · simp only []
    nlinarith [h]
  · ring

lemma iterSucc_valid (B : ℤ) (it : DIter) (h : it.valid B) :
    (iterSucc B it).valid B := by
  rcases h with ⟨h0, h1⟩
  unfold iterSucc DIter.valid
  split <;> rename_i h
  · refine ⟨le_refl 0, ?_⟩
    show (0 : ℤ) < B
    omega
  · refine ⟨?_, ?_⟩
    · show (0 : ℤ) ≤ it.off + 1
      omega
    · show it.off + 1 < B
      omega

lemma iterSucc_iterate_pos (B : ℤ) (it : DIter) (k : ℕ) :
    ((iterSucc B)^[k] it).pos B = it.pos B + k := by
  induction k generalizing it with
  | zero => simp
  | succ m ih =>
    rw [Function.iterate_succ_apply, ih, iterSucc_pos]
    push_cast
    ring

lemma iterSucc_iterate_valid (B : ℤ) (it : DIter) (h : it.valid B) (k : ℕ) :
    ((iterSucc B)^[k] it).valid B := by
  induction k generalizing it with
  | zero => exact h
  | succ m ih => rw [Function.iterate_succ_apply]; exact ih _ (iterSucc_valid B it h)

lemma valid_pos_inj (B : ℤ) (a b : DIter) (ha : a.valid B) (hb : b.valid B)
    (h : a.pos B = b.pos B) : a = b := by
  rcases ha with ⟨ha0, ha1⟩
  rcases hb with ⟨hb0, hb1⟩
  unfold DIter.pos at h
  have hnode : a.node = b.node := by
    have hd : B * (a.node - b.node) = b.off - a.off := by linarith
    have habs : |b.off - a.off| < B := by
      rw [abs_lt]; constructor <;> linarith
    have hdvd : B ∣ (b.off - a.off) := ⟨a.node - b.node, hd.symm⟩
    have : b.off - a.off = 0 := by
      rcases hdvd with ⟨c, hc⟩
      rcases lt_trichotomy c 0 with hcl | hce | hcg
      · exfalso
        have hB : 0 < B := by linarith
        have : B * c ≤ -B := by
          have : c ≤ -1 := by omega
          nlinarith
        rw [hc] at habs
        rw [abs_lt] at habs
        linarith [habs.1]
      · simp [hce] at hc; linarith [hc]
      · exfalso
        have hB : 0 < B := by linarith
        have : B ≤ B * c := by
          have : 1 ≤ c := by omega
          nlinarith
        rw [hc] at habs
        rw [abs_lt] at habs
        linarith [habs.2]
    have hoff : a.off = b.off := by linarith
    have : B * a.node = B * b.node := by linarith
    have hB : 0 < B := by linarith
    exact mul_left_cancel₀ (by linarith) this
  have hoff : a.off = b.off := by
    rw [hnode] at h; linarith
  cases a; cases b
  simp_all

/-- C1 as the specification states it is false: with the default buffer size
512, for `it_a = (node 0, cur = first)` and `it_b = (node 0, cur = first + 1)`
one `operator++` step moves `it_a` to `it_b`, but the spec's written formula
`buffer_size * (node_b - node_a - 1) + (cur_a - first_a) + (last_b - cur_b)`
yields `-1`, not `1` (it swaps the two offset terms of the code's
`operator-`). -/
theorem deque_iter_sub_spec_formula_counterexample :
    (iterSucc 512)^[1] ⟨0, 0⟩ = (⟨0, 1⟩ : DIter) ∧
      specSub 512 ⟨0, 1⟩ ⟨0, 0⟩ = -1 ∧ specSub 512 ⟨0, 1⟩ ⟨0, 0⟩ ≠ 1 := by
  refine ⟨?_, by decide, by decide⟩
  decide

/-- C1, amended: for valid iterators `it_a` at or before `it_b` in the same
deque with buffer size `B`, the code's subtraction `it_b - it_a`
(`B * (node_b - node_a - 1) + (cur_b - first_b) + (last_a - cur_a)`) is
exactly the number of `operator++` steps that move `it_a` to `it_b`:
iterating `operator++` that many times reaches `it_b`, and any step count
reaching `it_b` equals it. -/
theorem deque_iter_sub_counts_increments (B : ℤ) (a b : DIter)
    (hB : 0 < B) (ha : a.valid B) (hb : b.valid B)
    (hab : a.pos B ≤ b.pos B) :
    (iterSucc B)^[(iterSub B b a).toNat] a = b ∧
      ∀ k : ℕ, (iterSucc B)^[k] a = b → (k : ℤ) = iterSub B b a := by
  have hsub : iterSub B b a = b.pos B - a.pos B := iterSub_eq_pos_sub B b a
  constructor
  · apply valid_pos_inj B _ _ (iterSucc_iterate_valid B a ha _) hb
    rw [iterSucc_iterate_pos, Int.toNat_of_nonneg (by rw [hsub]; linarith), hsub]
    ring
  · intro k hk
    have := iterSucc_iterate_pos B a k
    rw [hk] at this
    rw [hsub]
    linarith

theorem deque_iter_sub_counts_increments_witness :
    (0 : ℤ) < 512 ∧
      (iterSucc 512)^[(iterSub 512 ⟨3, 1⟩ ⟨2, 510⟩).toNat] ⟨2, 510⟩ = ⟨3, 1⟩ := by
  refine ⟨by decide, (deque_iter_sub_counts_increments 512 ⟨2, 510⟩ ⟨3, 1⟩
    (by decide) (by decide) (by decide) (by decide)).1⟩

/-- C2: `operator+=` takes its fast path for `offset <= buffer_size`, not only
for `offset < buffer_size` as the specification states.  With `B = 512`, an
iterator at `(node 0, cur = first + 1)` plus `n = 511` gives
`offset = 512 = buffer_size`: the code leaves the iterator at
`(node 0, cur = last)` — one past the end of its buffer — whereas the claimed
branch condition would cross to `(node 1, cur = first)`, which is where one
obtains the iterator by 511 `operator++` steps.  Consequently `it + n` is not
the iterator reached by `n` increments (and dereferencing it, e.g. through
`operator[]`, reads out of bounds). -/
theorem deque_iter_add_boundary_bug :
    iterAdd 512 ⟨0, 1⟩ 511 = (⟨0, 512⟩ : DIter) ∧
      (iterSucc 512)^[511] ⟨0, 1⟩ = (⟨1, 0⟩ : DIter) ∧
      iterAdd 512 ⟨0, 1⟩ 511 ≠ (iterSucc 512)^[511] ⟨0, 1⟩ ∧
      ¬(iterAdd 512 ⟨0, 1⟩ 511).valid 512 := by
  have hstep : (iterSucc 512)^[511] ⟨0, 1⟩ = (⟨1, 0⟩ : DIter) := by
    apply valid_pos_inj 512 _ _ (iterSucc_iterate_valid 512 _ (by decide) _) (by decide)
    rw [iterSucc_iterate_pos]
    decide
  refine ⟨by decide, hstep, ?_, by decide⟩
  rw [hstep]
  decide

/-- C9: `advance(it, n)` never moves the caller's iterator.  For an `int*`
iterator at address `100` and `n = 3`, the internal `it += n` computes `103`,
but the caller's iterator still holds `100` after the call, not `103` as the
claim requires — `advance` and all `advance_aux` overloads take the iterator
by value. -/
theorem advance_does_not_move_caller_iterator :
    (∀ it n : ℤ, advance it n = it) ∧
      advance_aux_random_access 100 3 = 103 ∧
      advance 100 3 = 100 ∧ advance 100 3 ≠ 103 := by
  exact ⟨fun it n => rfl, by decide, by decide, by decide⟩

/-- C7: move construction resets the source to default (null) iterators and a
null map, so `d.begin() == d.end()` and `d.empty()` hold on the moved-from
deque — but `d.size()` is not `0`.  With null iterators `cur - first` and
`last - cur` are both `0`, so `_end - _begin` evaluates to `-buffer_size`;
converted to the unsigned `size_type` this is `2^64 - 512` for the default
buffer size, contradicting the claimed `d.size() == 0` (and contradicting
`empty()`, which is true on the same state). -/
theorem moved_from_deque_size_not_zero :
    ∀ other : RawDeque,
      (moveConstruct other).2.emptyRD ∧
        rawEq (moveConstruct other).2.bIt (moveConstruct other).2.eIt ∧
        (moveConstruct other).2.sizeRD 512 = 2 ^ 64 - 512 ∧
        (moveConstruct other).2.sizeRD 512 ≠ 0 := by
  intro other
  have h2 : (moveConstruct other).2 = ⟨RawIter.default, RawIter.default, 0, 0⟩ := rfl
  rw [h2]
  exact ⟨by decide, by decide, by decide, by decide⟩

namespace Memory

variable {α β : Type}

lemma length_destroyN (n : ℕ) (mem : List (Option β)) (p : ℕ) :
    (destroyN n mem p).length = mem.length := by
  induction n generalizing mem p with
  | zero => rfl
  | succ m ih => rw [destroyN, ih, List.length_set]

lemma destroyN_getElem?_out (n : ℕ) (mem : List (Option β)) (p j : ℕ)
    (h : j < p ∨ p + n ≤ j) : (destroyN n mem p)[j]? = mem[j]? := by
  induction n generalizing mem p with
  | zero => rfl
  | succ m ih =>
    rw [destroyN, ih _ _ (by omega), List.getElem?_set_ne (by omega)]

lemma destroyN_getElem?_in (n : ℕ) (mem : List (Option β)) (p j : ℕ)
    (h1 : p ≤ j) (h2 : j < p + n) (h3 : j < mem.length) :
    (destroyN n mem p)[j]? = some none := by
  induction n generalizing mem p with
  | zero => omega
  | succ m ih =>
    rw [destroyN]
    by_cases hj : j = p
    · subst hj
      rw [destroyN_getElem?_out _ _ _ _ (by omega)]
      exact List.getElem?_set_eq_of_lt none h3
    · exact ih _ _ (by omega) (by omega) (by rw [List.length_set]; exact h3)

lemma length_writeN (bs : List β) (mem : List (Option β)) (p : ℕ) :
    (writeN bs mem p).length = mem.length := by
  induction bs generalizing mem p with
  | nil => rfl
  | cons b rest ih => rw [writeN, ih, List.length_set]

lemma writeN_getElem?_out (bs : List β) (mem : List (Option β)) (p j : ℕ)
    (h : j < p ∨ p + bs.length ≤ j) : (writeN bs mem p)[j]? = mem[j]? := by
  induction bs generalizing mem p with
  | nil => rfl
  | cons b rest ih =>
    rw [writeN, ih _ _ (by simp at h; omega), List.getElem?_set_ne (by simp at h; omega)]

lemma writeN_getElem?_in (bs : List β) (mem : List (Option β)) (p : ℕ)
    (i : ℕ) (hi : i < bs.length) (hlen : p + bs.length ≤ mem.length) :
    (writeN bs mem p)[p + i]? = some (some (bs.get ⟨i, hi⟩)) := by
  induction bs generalizing mem p i with
  | nil => simp at hi
  | cons b rest ih =>
    rw [writeN]
    match i with
    | 0 =>
      rw [writeN_getElem?_out _ _ _ _ (by omega)]
      simp only [Nat.add_zero]
      exact List.getElem?_set_eq_of_lt (some b) (by simp at hlen; omega)
    | Nat.succ i' =>
      have : p + (i' + 1) = (p + 1) + i' := by omega
      rw [this, ih _ _ i' (by simp at hi; omega) (by rw [List.length_set]; simp at hlen; omega)]
      rfl

lemma mapOpt_length (f : α → Option β) (src : List α) (bs : List β)
    (h : mapOpt f src = some bs) : bs.length = src.length := by
  induction src generalizing bs with
  | nil => rw [mapOpt] at h; cases h; rfl
  | cons a l ih =>
    rw [mapOpt] at h
    cases hfa : f a with
    | none => rw [hfa] at h; cases h
    | some b =>
      rw [hfa] at h
      cases hml : mapOpt f l with
      | none => rw [hml] at h; cases h
      | some bs' =>
        rw [hml] at h
        cases h
        simp [ih bs' hml]

lemma uninitialized_copy_ok (f : α → Option β) (src : List α) (bs : List β)
    (h : mapOpt f src = some bs) (mem : List (Option β)) (d cur : ℕ) :
    uninitialized_copy f src mem d cur = .ok (writeN bs mem cur, cur + src.length) := by
  induction src generalizing bs mem cur with
  | nil =>
    rw [mapOpt] at h; cases h
    rfl
  | cons a l ih =>
    rw [mapOpt] at h
    cases hfa : f a with
    | none => rw [hfa] at h; cases h
    | some b =>
      rw [hfa] at h
      cases hml : mapOpt f l with
      | none => rw [hml] at h; cases h
      | some bs' =>
        rw [hml] at h
        cases h
        simp only [uninitialized_copy, hfa]
        rw [ih bs' hml, writeN]
        have harith : cur + 1 + l.length = cur + (a :: l).length := by
          simp [List.length_cons]; omega
        rw [harith]

lemma uninitialized_copy_err (f : α → Option β) (src : List α)
    (mem0 mem : List (Option β)) (d cur : ℕ)
    (hdc : d ≤ cur) (hfit : cur + src.length ≤ mem0.length)
    (hlen : mem.length = mem0.length)
    (hout : ∀ j, j < d ∨ cur ≤ j → mem[j]? = mem0[j]?)
    (hraw : ∀ j, d ≤ j → j < cur + src.length → mem0[j]? = some none)
    (h : mapOpt f src = none) :
    uninitialized_copy f src mem d cur = .error mem0 := by
  induction src generalizing mem cur with
  | nil => rw [mapOpt] at h; cases h
  | cons a l ih =>
    rw [mapOpt] at h
    cases hfa : f a with
    | none =>
      simp only [uninitialized_copy, hfa]
      congr 1
      apply List.ext_getElem?
      intro j
      rcases Nat.lt_or_ge j d with hj | hj
      · rw [destroyN_getElem?_out _ _ _ _ (Or.inl hj)]
        exact hout j (Or.inl hj)
      · rcases Nat.lt_or_ge j cur with hj2 | hj2
        · rw [destroyN_getElem?_in _ _ _ _ hj (by omega) (by simp [hlen]; omega)]
          exact (hraw j hj (by simp; omega)).symm
        · rw [destroyN_getElem?_out _ _ _ _ (Or.inr (by omega))]
          exact hout j (Or.inr hj2)
    | some b =>
      rw [hfa] at h
      cases hml : mapOpt f l with
      | some bs' => rw [hml] at h; simp at h
      | none =>
        simp only [uninitialized_copy, hfa]
        apply ih _ (cur + 1) (by omega) (by simp at hfit ⊢; omega)
          (by rw [List.length_set]; exact hlen) _ (fun j hd hj => hraw j hd (by simp at hj ⊢; omega)) hml
        intro j hj
        rw [List.getElem?_set_ne (by omega)]
        exact hout j (by omega)

lemma uninitialized_fill_n_ok (g : ℕ → Option β) (m : ℕ) (bs : List β)
    (mem : List (Option β)) (first cur : ℕ) (hfc : first ≤ cur)
    (h : mapOpt g (List.range' (cur - first) m) = some bs) :
    uninitialized_fill_n g m mem first cur = .ok (writeN bs mem cur, cur + m) := by
  induction m generalizing bs mem cur with
  | zero =>
    rw [List.range'] at h
    rw [mapOpt] at h; cases h
    rfl
  | succ n ih =>
    rw [List.range'_succ, mapOpt] at h
    cases hg : g (cur - first) with
    | none => rw [hg] at h; cases h
    | some b =>
      rw [hg] at h
      cases hml : mapOpt g (List.range' (cur - first + 1) n) with
      | none => rw [hml] at h; cases h
      | some bs' =>
        rw [hml] at h
        cases h
        simp only [uninitialized_fill_n, hg]
        have harg : cur + 1 - first = cur - first + 1 := by omega
        rw [ih bs' _ (cur + 1) (by omega) (by rw [harg]; exact hml), writeN]
        congr 2
        omega

lemma uninitialized_fill_n_err (g : ℕ → Option β) (m : ℕ)
    (mem0 mem : List (Option β)) (first cur : ℕ)
    (hfc : first ≤ cur) (hfit : cur + m ≤ mem0.length)
    (hlen : mem.length = mem0.length)
    (hout : ∀ j, j < first ∨ cur ≤ j → mem[j]? = mem0[j]?)
    (hraw : ∀ j, first ≤ j → j < cur + m → mem0[j]? = some none)
    (h : mapOpt g (List.range' (cur - first) m) = none) :
    uninitialized_fill_n g m mem first cur = .error mem0 := by
  induction m generalizing mem cur with
  | zero => rw [List.range'] at h; rw [mapOpt] at h; cases h
  | succ n ih =>
    rw [List.range'_succ, mapOpt] at h
    cases hg : g (cur - first) with
    | none =>
      simp only [uninitialized_fill_n, hg]
      congr 1
      apply List.ext_getElem?
      intro j
      rcases Nat.lt_or_ge j first with hj | hj
      · rw [destroyN_getElem?_out _ _ _ _ (Or.inl hj)]
        exact hout j (Or.inl hj)
      · rcases Nat.lt_or_ge j cur with hj2 | hj2
        · rw [destroyN_getElem?_in _ _ _ _ hj (by omega) (by simp [hlen]; omega)]
          exact (hraw j hj (by omega)).symm
        · rw [destroyN_getElem?_out _ _ _ _ (Or.inr (by omega))]
          exact hout j (Or.inr hj2)
    | some b =>
      rw [hg] at h
      cases hml : mapOpt g (List.range' (cur - first + 1) n) with
      | some bs' => rw [hml] at h; simp at h
      | none =>
        simp only [uninitialized_fill_n, hg]
        apply ih _ (cur + 1) (by omega) (by omega)
          (by rw [List.length_set]; exact hlen) _ (fun j hd hj => hraw j hd (by omega))
          (by rw [show cur + 1 - first = cur - first + 1 by omega]; exact hml)
        intro j hj
        rw [List.getElem?_set_ne (by omega)]
        exact hout j (by omega)

end Memory

/-- C8: the uninitialized-memory algorithms either construct every element of
the range in forward order, or — when the `i`-th construction fails — destroy
exactly the already-constructed prefix `[d_first, current)` before
re-signaling, so the caller never observes a partially-constructed range.
For a raw destination (`none` on the target range):
on total success, `uninitialized_copy` returns the advanced iterator with
slot `d + i` holding the `i`-th constructed object and all other slots
untouched; on any failure it re-signals with the memory exactly as it was
before the call.  Likewise for `uninitialized_fill_n`, whose `i`-th
construction is the oracle `g i`. -/
theorem uninitialized_algorithms_rollback_on_failure (α β : Type)
    (f : α → Option β) (g : ℕ → Option β) (src : List α) (n : ℕ)
    (mem : List (Option β)) (d : ℕ) :
    (d + src.length ≤ mem.length →
      (∀ j, d ≤ j → j < d + src.length → mem[j]? = some none) →
      (∀ bs, Memory.mapOpt f src = some bs →
          Memory.uninitialized_copy f src mem d d =
              .ok (Memory.writeN bs mem d, d + src.length) ∧
            (∀ i (hi : i < bs.length),
              (Memory.writeN bs mem d)[d + i]? = some (some (bs.get ⟨i, hi⟩))) ∧
            (∀ j, j < d ∨ d + src.length ≤ j →
              (Memory.writeN bs mem d)[j]? = mem[j]?)) ∧
        (Memory.mapOpt f src = none →
          Memory.uninitialized_copy f src mem d d = .error mem)) ∧
      (d + n ≤ mem.length →
        (∀ j, d ≤ j → j < d + n → mem[j]? = some none) →
        (∀ bs, Memory.mapOpt g (List.range n) = some bs →
            Memory.uninitialized_fill_n g n mem d d =
                .ok (Memory.writeN bs mem d, d + n) ∧
              (∀ i (hi : i < bs.length),
                (Memory.writeN bs mem d)[d + i]? = some (some (bs.get ⟨i, hi⟩)))) ∧
          (Memory.mapOpt g (List.range n) = none →
            Memory.uninitialized_fill_n g n mem d d = .error mem)) := by
  constructor
  · intro hfit hraw
    constructor
    · intro bs hbs
      have hbl : bs.length = src.length := Memory.mapOpt_length f src bs hbs
      refine ⟨Memory.uninitialized_copy_ok f src bs hbs mem d d, ?_, ?_⟩
      · intro i hi
        exact Memory.writeN_getElem?_in bs mem d i hi (by omega)
      · intro j hj
        exact Memory.writeN_getElem?_out bs mem d j (by omega)
    · intro hnone
      exact Memory.uninitialized_copy_err f src mem mem d d (le_refl d) hfit rfl
        (fun j _ => rfl) hraw hnone
  · intro hfit hraw
    constructor
    · intro bs hbs
      have hrange : Memory.mapOpt g (List.range' (d - d) n) = some bs := by
        rw [show d - d = 0 by omega, ← List.range_eq_range']
        exact hbs
      have hbl : bs.length = n := by
        have := Memory.mapOpt_length g (List.range n) bs hbs
        simpa using this
      refine ⟨Memory.uninitialized_fill_n_ok g n bs mem d d (le_refl d) hrange, ?_⟩
      intro i hi
      exact Memory.writeN_getElem?_in bs mem d i hi (by omega)
    · intro hnone
      apply Memory.uninitialized_fill_n_err g n mem mem d d (le_refl d) hfit rfl
        (fun j _ => rfl) hraw
      rw [show d - d = 0 by omega, ← List.range_eq_range']
      exact hnone

theorem uninitialized_algorithms_rollback_witness :
    Memory.uninitialized_copy (fun a : ℕ => some (a + 1)) [5, 6]
        [none, none, none] 0 0 =
      .ok ([some 6, some 7, none], 2) ∧
    Memory.uninitialized_copy
        (fun a : ℕ => if a = 6 then none else some a) [5, 6, 7]
        [none, none, none] 0 0 = .error [none, none, none] ∧
    Memory.uninitialized_fill_n (fun i => if i = 1 then none else some 9) 3
        [none, none, none] 0 0 = .error [none, none, none] := by
  have H1 := uninitialized_algorithms_rollback_on_failure ℕ ℕ
    (fun a => some (a + 1)) (fun _ => some 0) [5, 6] 0 [none, none, none] 0
  have h1 := (H1.1 (by decide) (by decide)).1 [6, 7] (by decide)
  have H2 := uninitialized_algorithms_rollback_on_failure ℕ ℕ
    (fun a => if a = 6 then none else some a) (fun _ => some 0) [5, 6, 7] 0
    [none, none, none] 0
  have h2 := (H2.1 (by decide) (by decide)).2 (by decide)
  have H3 := uninitialized_algorithms_rollback_on_failure ℕ ℕ some
    (fun i => if i = 1 then none else some 9) [] 3 [none, none, none] 0
  have h3 := (H3.2 (by decide) (by decide)).2 (by decide)
  exact ⟨h1.1, h2, h3⟩

namespace Deque

variable {α : Type}

/-- C3: `push_back` stores every element in order — iterating the trace deque
(buffer size 2, pushes `10, 20, 30, 40`) yields all four values and
`container[size-1] = 40` — but `container[size-2]`, i.e. `operator[](2)`,
goes through `operator+` whose fast path accepts `offset = buffer_size`: it
dereferences one past the end of the first buffer (an unconstructed slot,
`none`) instead of the element `30`, which the storage demonstrably holds at
flat position 8 (node 4, offset 0).  So after `push_back(x = 30)` then
`push_back(y = 40)`, `container[size-2] == x` fails at the buffer
boundary. -/
theorem push_back_boundary_index_read_bug :
    sizeD 2 traceIndex = 4 ∧
      iterCollect 2 traceIndex = [some 10, some 20, some 30, some 40] ∧
      nthD 2 traceIndex 3 = some 40 ∧
      readPos 2 traceIndex 8 = some 30 ∧
      nthD 2 traceIndex 2 = none ∧
      nthD 2 traceIndex 2 ≠ some 30 := by
  exact ⟨by decide, by decide, by decide, by decide, by decide, by decide⟩

/-- C4: after `push_back 10`, `push_back 20` (2 pushes, filling the first
buffer of a buffer-size-2 deque) and one `pop_back`, `size()` must be
`2 - 1 = 1`; but the buffer-crossing branch of `pop_back` sets
`_end.cur = _end.last` after destroying, so `_end` still denotes the old
one-past-the-end position: `size()` stays `2`, and `back()` (= `*(_end - 1)`)
reads the slot of the just-destroyed element (`none`). -/
theorem pop_back_buffer_cross_size_bug :
    sizeD 2 tracePop = 2 ∧ sizeD 2 tracePop ≠ 2 - 1 ∧
      backD 2 tracePop = none := by
  exact ⟨by decide, by decide, by decide⟩

/-- C5: the state reached by `push_back 10`, `push_back 20`, `pop_back` on a
buffer-size-2 deque is observable (all operations have returned), yet its
`_end` iterator has `cur == last`: offset `eCur = 2 = buffer_size`, i.e.
`current` is NOT strictly below `last`.  The claimed normalization invariant
fails after `pop_back`'s buffer-crossing branch (deque.hpp:505). -/
theorem pop_back_leaves_end_cur_at_last :
    tracePop.eCur = 2 ∧ ¬tracePop.eCur < 2 := by
  exact ⟨by decide, by decide⟩

/-- C10: on an empty deque (`size() == 0`, with the boundary iterators
normalized as in every reachable empty state: offsets below the buffer
size), `pop_back()` and `pop_front()` are no-ops: the `if (!empty())` guard
(deque.hpp:495,514) is false, so no element is destroyed, no buffer is
deallocated, and the whole state — `_begin`, `_end`, map, map size, buffers —
is returned unchanged. -/
theorem pop_on_empty_deque_is_noop (B : ℕ) (d : DQ α) (hB : 0 < B)
    (hb : d.bCur < B) (he : d.eCur < B) (hsize : sizeD B d = 0) :
    pop_back B d = d ∧ pop_front B d = d := by
  have hempty : emptyD d := by
    unfold sizeD at hsize
    have hd : (B : ℤ) * ((d.eNode : ℤ) - (d.bNode : ℤ)) = (d.bCur : ℤ) - (d.eCur : ℤ) := by
      linarith
    have hBz : (0 : ℤ) < B := by exact_mod_cast hB
    have habs : |(d.bCur : ℤ) - (d.eCur : ℤ)| < B := by
      rw [abs_lt]
      constructor
      · have : (0 : ℤ) ≤ (d.bCur : ℤ) := Int.natCast_nonneg _
        have : (d.eCur : ℤ) < B := by exact_mod_cast he
        omega
      · have : (0 : ℤ) ≤ (d.eCur : ℤ) := Int.natCast_nonneg _
        have : (d.bCur : ℤ) < B := by exact_mod_cast hb
        omega
    have hzero : (d.eNode : ℤ) - (d.bNode : ℤ) = 0 := by
      by_contra hne
      rcases lt_or_gt_of_ne hne with hlt | hgt
      · have h1 : (d.eNode : ℤ) - (d.bNode : ℤ) ≤ -1 := by omega
        have : (B : ℤ) * ((d.eNode : ℤ) - (d.bNode : ℤ)) ≤ B * (-1) := by
          apply mul_le_mul_of_nonneg_left h1 (le_of_lt hBz)
        rw [abs_lt] at habs
        nlinarith
      · have h1 : (1 : ℤ) ≤ (d.eNode : ℤ) - (d.bNode : ℤ) := by omega
        have : (B : ℤ) * 1 ≤ B * ((d.eNode : ℤ) - (d.bNode : ℤ)) := by
          apply mul_le_mul_of_nonneg_left h1 (le_of_lt hBz)
        rw [abs_lt] at habs
        nlinarith
    have hnode : d.eNode = d.bNode := by
      have : (d.eNode : ℤ) = (d.bNode : ℤ) := by omega
      exact_mod_cast this
    have hcur : d.eCur = d.bCur := by
      rw [hzero] at hd
      simp at hd
      omega
    exact ⟨by rw [hnode], hcur⟩
  constructor
  · unfold pop_back
    rw [if_pos hempty]
  · unfold pop_front
    rw [if_pos hempty]

theorem pop_on_empty_deque_is_noop_witness :
    pop_back 2 (initialize_map_and_nodes 2 0 : DQ ℕ) = initialize_map_and_nodes 2 0 ∧
      pop_front 2 (initialize_map_and_nodes 2 0 : DQ ℕ) = initialize_map_and_nodes 2 0 := by
  exact pop_on_empty_deque_is_noop 2 _ (by decide) (by decide) (by decide) (by decide)

lemma node_le_of_pos_le (B : ℕ) {x y ox oy : ℕ} (hoy : oy < B)
    (h : x * B + ox ≤ y * B + oy) : x ≤ y := by
  by_contra hc
  push_neg at hc
  have h1 : (y + 1) * B ≤ x * B := Nat.mul_le_mul_right B (by omega)
  rw [add_mul, one_mul] at h1
  linarith

lemma pos_eq_parts (B : ℕ) {x y ox oy : ℕ} (hox : ox < B) (hoy : oy < B)
    (h : x * B + ox = y * B + oy) : x = y ∧ ox = oy := by
  have h1 : x ≤ y := node_le_of_pos_le B hoy (le_of_eq h)
  have h2 : y ≤ x := node_le_of_pos_le B hox (le_of_eq h.symm)
  have hxy : x = y := le_antisymm h1 h2
  subst hxy
  exact ⟨rfl, by omega⟩

lemma div_mod_of_decomp (B : ℕ) (node off : ℕ) (hoff : off < B) :
    (node * B + off) / B = node ∧ (node * B + off) % B = off := by
  have hB : 0 < B := by omega
  constructor
  · rw [Nat.mul_comm, Nat.mul_add_div hB, Nat.div_eq_of_lt hoff]
    omega
  · rw [Nat.mul_comm node B, Nat.mul_add_mod, Nat.mod_eq_of_lt hoff]

lemma succIt_posP (B : ℕ) (it : ℕ × ℕ) (hoff : it.2 < B) :
    posP B (succIt B it) = posP B it + 1 ∧ (succIt B it).2 < B := by
  unfold succIt posP
  split <;> rename_i h
  · simp only []
    constructor
    · rw [add_mul, one_mul]
      linarith
    · omega
  · exact ⟨rfl, by omega⟩

lemma succIt_node_mono (B : ℕ) (it : ℕ × ℕ) : it.1 ≤ (succIt B it).1 := by
  unfold succIt
  split <;> simp

lemma succIt_iterate (B : ℕ) (k : ℕ) :
    ∀ it : ℕ × ℕ, it.2 < B →
      posP B ((succIt B)^[k] it) = posP B it + k ∧ ((succIt B)^[k] it).2 < B := by
  induction k with
  | zero => intro it h; exact ⟨rfl, h⟩
  | succ m ih =>
    intro it h
    rw [Function.iterate_succ_apply]
    have h1 := succIt_posP B it h
    have h2 := ih (succIt B it) h1.2
    exact ⟨by rw [h2.1, h1.1]; ring, h2.2⟩

lemma posP_inj (B : ℕ) {it it' : ℕ × ℕ} (h2 : it.2 < B) (h2' : it'.2 < B)
    (h : posP B it = posP B it') : it = it' := by
  unfold posP at h
  have := pos_eq_parts B h2 h2' h
  exact Prod.ext this.1 this.2

lemma readPos_constructAt_ne (B : ℕ) (hB : 0 < B) (d : DQ α)
    (hinj : ∀ k l, d.bNode ≤ k → k ≤ d.eNode → d.bNode ≤ l → l ≤ d.eNode →
      d.map k = d.map l → k = l)
    (wnode woff : ℕ) (hwn1 : d.bNode ≤ wnode) (hwn2 : wnode ≤ d.eNode)
    (hwoff : woff < B) (v : α) (q : ℕ)
    (hq1 : d.bNode * B ≤ q) (hq2 : q < (d.eNode + 1) * B)
    (hne : q ≠ wnode * B + woff) :
    readPos B (constructAt d (d.map wnode) woff v) q = readPos B d q := by
  unfold readPos constructAt
  simp only []
  by_cases hbid : d.map (q / B) = d.map wnode
  · have hqb1 : d.bNode ≤ q / B := (Nat.le_div_iff_mul_le hB).mpr hq1
    have hqb2 : q / B ≤ d.eNode := by
      have := (Nat.div_lt_iff_lt_mul hB).mpr hq2
      omega
    have hqw : q / B = wnode := hinj _ _ hqb1 hqb2 hwn1 hwn2 hbid
    have hmod : q % B ≠ woff := by
      intro hcontra
      apply hne
      have := Nat.div_add_mod q B
      rw [hqw, hcontra] at this
      linarith
    rw [if_pos hbid]
    simp only [if_neg hmod]
  · rw [if_neg hbid]

lemma readPos_constructAt_eq (B : ℕ) (d : DQ α) (wnode woff : ℕ)
    (hwoff : woff < B) (v : α) :
    readPos B (constructAt d (d.map wnode) woff v) (wnode * B + woff) = some v := by
  unfold readPos constructAt
  have hdm := div_mod_of_decomp B wnode woff hwoff
  rw [hdm.1, hdm.2]
  simp

lemma writeLoop_fields (B : ℕ) (src : List α) :
    ∀ (d : DQ α) (it : ℕ × ℕ),
      (writeLoop B src d it).map = d.map ∧ (writeLoop B src d it).bNode = d.bNode ∧
      (writeLoop B src d it).bCur = d.bCur ∧ (writeLoop B src d it).eNode = d.eNode ∧
      (writeLoop B src d it).eCur = d.eCur := by
  induction src with
  | nil => intro d it; exact ⟨rfl, rfl, rfl, rfl, rfl⟩
  | cons x rest ih => intro d it; exact ih _ _

lemma writeLoop_reads (B : ℕ) (hB : 0 < B) (src : List α) :
    ∀ (d : DQ α) (node off : ℕ),
      (∀ k l, d.bNode ≤ k → k ≤ d.eNode → d.bNode ≤ l → l ≤ d.eNode →
        d.map k = d.map l → k = l) →
      d.bCur < B → d.eCur < B → off < B →
      d.bNode * B + d.bCur ≤ node * B + off →
      node * B + off + src.length ≤ d.eNode * B + d.eCur →
      (∀ q, d.bNode * B ≤ q → q < node * B + off →
        readPos B (writeLoop B src d (node, off)) q = readPos B d q) ∧
      (∀ j (hj : j < src.length),
        readPos B (writeLoop B src d (node, off)) (node * B + off + j) =
          some (src.get ⟨j, hj⟩)) := by
  induction src with
  | nil =>
    intro d node off _ _ _ _ _ _
    refine ⟨fun q _ _ => rfl, fun j hj => ?_⟩
    simp at hj
  | cons x rest ih =>
    intro d node off hinj hbc hec hoff hlo hfit
    have hlen : (x :: rest).length = rest.length + 1 := rfl
    have hposlt : node * B + off < d.eNode * B + d.eCur := by
      rw [hlen] at hfit; omega
    have hnle : node ≤ d.eNode := node_le_of_pos_le B hec (le_of_lt hposlt)
    have hnge : d.bNode ≤ node := node_le_of_pos_le B hoff hlo
    have hsucc := succIt_posP B (node, off) hoff
    have hd' := ih (constructAt d (d.map node) off x)
      (succIt B (node, off)).1 (succIt B (node, off)).2 hinj hbc hec hsucc.2
      (by
        show d.bNode * B + d.bCur ≤ posP B (succIt B (node, off))
        rw [hsucc.1]
        unfold posP
        simp only []
        omega)
      (by
        show posP B (succIt B (node, off)) + rest.length ≤ d.eNode * B + d.eCur
        rw [hsucc.1]
        unfold posP
        simp only []
        rw [hlen] at hfit
        omega)
    have hrw : writeLoop B (x :: rest) d (node, off) =
        writeLoop B rest (constructAt d (d.map node) off x) (succIt B (node, off)) := rfl
    have hebound : d.eNode * B + d.eCur < (d.eNode + 1) * B := by
      rw [add_mul, one_mul]; omega
    constructor
    · intro q hq1 hq2
      rw [hrw]
      have := hd'.1 q hq1 (by
        have := hsucc.1
        unfold posP at this
        simp only [] at this
        omega)
      rw [this]
      exact readPos_constructAt_ne B hB d hinj node off hnge hnle hoff x q hq1
        (by omega) (by omega)
    · intro j hj
      match j with
      | 0 =>
        rw [hrw, Nat.add_zero]
        have hq1 : d.bNode * B ≤ node * B + off := by omega
        have := hd'.1 (node * B + off) hq1 (by
          have := hsucc.1
          unfold posP at this
          simp only [] at this
          omega)
        rw [this]
        exact readPos_constructAt_eq B d node off hoff x
      | Nat.succ j' =>
        have hj' : j' < rest.length := by rw [hlen] at hj; omega
        have := hd'.2 j' hj'
        have harg : (succIt B (node, off)).1 * B + (succIt B (node, off)).2 + j' =
            node * B + off + (j' + 1) := by
          have := hsucc.1
          unfold posP at this
          simp only [] at this
          omega
        rw [hrw, ← harg, this]
        rfl

lemma collectGo_spec (B : ℕ) (hB : 0 < B) (d : DQ α)
    (hinj : ∀ k l, d.bNode ≤ k → k ≤ d.eNode → d.bNode ≤ l → l ≤ d.eNode →
      d.map k = d.map l → k = l)
    (hec : d.eCur < B) :
    ∀ (m : ℕ) (it : ℕ × ℕ), it.2 < B → d.bNode ≤ it.1 →
      posP B it + m = d.eNode * B + d.eCur →
      collectGo B d m it = (List.range m).map (fun j => readPos B d (posP B it + j)) := by
  intro m
  induction m with
  | zero => intro it _ _ _; rfl
  | succ m' ihm =>
    intro it hoff hbn hpos
    rw [collectGo]
    have hposlt : posP B it < d.eNode * B + d.eCur := by omega
    have hitle : it.1 ≤ d.eNode := by
      apply node_le_of_pos_le B hec
      unfold posP at hposlt
      exact le_of_lt hposlt
    have hne : curAddr d it ≠ curAddr d (d.eNode, d.eCur) := by
      intro hcontra
      unfold curAddr at hcontra
      simp only [Prod.mk.injEq] at hcontra
      have h1 : it.1 = d.eNode :=
        hinj it.1 d.eNode hbn hitle (le_trans hbn hitle) (le_refl _) hcontra.1
      have : posP B it = d.eNode * B + d.eCur := by
        unfold posP
        rw [h1, hcontra.2]
      omega
    rw [if_neg hne]
    have hread : readIt d it = readPos B d (posP B it) := by
      unfold readIt readPos posP
      have hdm := div_mod_of_decomp B it.1 it.2 hoff
      rw [hdm.1, hdm.2]
    have hsucc := succIt_posP B it hoff
    have htail := ihm (succIt B it) hsucc.2
      (le_trans hbn (succIt_node_mono B it)) (by rw [hsucc.1]; omega)
    rw [hread, htail, List.range_succ_eq_map, List.map_cons, List.map_map]
    congr 1
    apply List.map_congr_left
    intro j _
    simp only [Function.comp_apply]
    rw [hsucc.1]
    congr 1
    omega

lemma init_eNode (B n : ℕ) :
    (initialize_map_and_nodes B n : DQ α).eNode =
      (initialize_map_and_nodes B n : DQ α).bNode + n / B := by
  show (max 8 (n / B + 1 + 2) - (n / B + 1)) / 2 + (n / B + 1) - 1 =
    (max 8 (n / B + 1 + 2) - (n / B + 1)) / 2 + n / B
  generalize n / B = q
  omega

lemma init_eCur (B n : ℕ) :
    (initialize_map_and_nodes B n : DQ α).eCur = n % B := rfl

lemma init_bCur (B n : ℕ) :
    (initialize_map_and_nodes B n : DQ α).bCur = 0 := rfl

lemma init_map_active (B n : ℕ) (k : ℕ)
    (h1 : (initialize_map_and_nodes B n : DQ α).bNode ≤ k)
    (h2 : k ≤ (initialize_map_and_nodes B n : DQ α).eNode) :
    (initialize_map_and_nodes B n : DQ α).map k =
      k - (initialize_map_and_nodes B n : DQ α).bNode := by
  rw [init_eNode] at h2
  show (if (max 8 (n / B + 1 + 2) - (n / B + 1)) / 2 ≤ k ∧
      k < (max 8 (n / B + 1 + 2) - (n / B + 1)) / 2 + (n / B + 1) then
      k - (max 8 (n / B + 1 + 2) - (n / B + 1)) / 2 else 0) = _
  rw [if_pos ⟨h1, by
    revert h2
    show k ≤ (max 8 (n / B + 1 + 2) - (n / B + 1)) / 2 + n / B → _
    omega⟩]
  rfl

lemma init_map_inj (B n : ℕ) :
    ∀ k l, (initialize_map_and_nodes B n : DQ α).bNode ≤ k →
      k ≤ (initialize_map_and_nodes B n : DQ α).eNode →
      (initialize_map_and_nodes B n : DQ α).bNode ≤ l →
      l ≤ (initialize_map_and_nodes B n : DQ α).eNode →
      (initialize_map_and_nodes B n : DQ α).map k =
        (initialize_map_and_nodes B n : DQ α).map l → k = l := by
  intro k l hk1 hk2 hl1 hl2 hmap
  rw [init_map_active B n k hk1 hk2, init_map_active B n l hl1 hl2] at hmap
  omega

lemma init_pos_sum (B n : ℕ) :
    (initialize_map_and_nodes B n : DQ α).eNode * B +
        (initialize_map_and_nodes B n : DQ α).eCur =
      (initialize_map_and_nodes B n : DQ α).bNode * B +
        (initialize_map_and_nodes B n : DQ α).bCur + n := by
  rw [init_eNode, init_eCur, init_bCur, add_mul]
  have := Nat.div_add_mod n B
  have hcomm : n / B * B = B * (n / B) := Nat.mul_comm _ _
  omega

/-- C6: constructing a deque from a source range and iterating
`begin() .. end()` reproduces exactly the source sequence, in order, for
every source list (in particular lengths `0`, `1`, `B-1`, `B`, `B+1`, `2*B`),
and `size()` equals the source length.  Moreover `src.length` applications of
`operator++` carry `begin()` exactly onto `end()`. -/
theorem deque_range_roundtrip (B : ℕ) (hB : 0 < B) (α : Type) (src : List α) :
    sizeD B (deque_from_range B src) = src.length ∧
      iterCollect B (deque_from_range B src) = src.map some ∧
      (succIt B)^[src.length]
          ((deque_from_range B src).bNode, (deque_from_range B src).bCur) =
        ((deque_from_range B src).eNode, (deque_from_range B src).eCur) := by
  set n := src.length with hn
  have hrw : deque_from_range B src =
      writeLoop B src (initialize_map_and_nodes B n)
        ((initialize_map_and_nodes B n : DQ α).bNode,
          (initialize_map_and_nodes B n : DQ α).bCur) := rfl
  set d0 : DQ α := initialize_map_and_nodes B n with hd0
  have hfields := writeLoop_fields B src d0 (d0.bNode, d0.bCur)
  have hbc : d0.bCur < B := by rw [hd0, init_bCur]; exact hB
  have hec : d0.eCur < B := by rw [hd0, init_eCur]; exact Nat.mod_lt n hB
  have hinj := init_map_inj B n (α := α)
  have hsum := init_pos_sum B n (α := α)
  have hreads := writeLoop_reads B hB src d0 d0.bNode d0.bCur hinj hbc hec hbc
    (le_refl _) (by rw [← hd0] at hsum; omega)
  set dF := writeLoop B src d0 (d0.bNode, d0.bCur) with hdF
  have hFb : dF.bNode = d0.bNode := hfields.2.1
  have hFbc : dF.bCur = d0.bCur := hfields.2.2.1
  have hFe : dF.eNode = d0.eNode := hfields.2.2.2.1
  have hFec : dF.eCur = d0.eCur := hfields.2.2.2.2
  have hFmap : dF.map = d0.map := hfields.1
  have hsumF : dF.eNode * B + dF.eCur = dF.bNode * B + dF.bCur + n := by
    rw [hFb, hFbc, hFe, hFec]
    rw [← hd0] at hsum
    exact hsum
  refine ⟨?_, ?_, ?_⟩
  · rw [hrw]
    unfold sizeD
    rw [hFb, hFbc, hFe, hFec, hd0, init_eNode, init_eCur, init_bCur]
    push_cast
    have hdm : (B : ℤ) * ((n : ℤ) / (B : ℤ))  = (B : ℤ) * ((n / B : ℕ) : ℤ) := by norm_num
    have hmod := Nat.div_add_mod n B
    have hcast : (B : ℤ) * ((n / B : ℕ) : ℤ) + ((n % B : ℕ) : ℤ) = (n : ℤ) := by
      exact_mod_cast hmod
    ring_nf
    ring_nf at hcast
    linarith
  · rw [hrw]
    unfold iterCollect
    have hcount : countD B dF = n := by
      unfold countD posP
      simp only []
      rw [hsumF]
      omega
    have hinjF : ∀ k l, dF.bNode ≤ k → k ≤ dF.eNode → dF.bNode ≤ l →
        l ≤ dF.eNode → dF.map k = dF.map l → k = l := by
      rw [hFb, hFe, hFmap]
      exact hinj
    have hcol := collectGo_spec B hB dF hinjF (by rw [hFec]; exact hec) n
      (dF.bNode, dF.bCur) (by rw [hFbc]; exact hbc) (le_refl _)
      (by
        unfold posP
        simp only []
        omega)
    rw [hcount, hcol]
    apply List.ext_getElem
    · simp
    · intro i h1 h2
      simp only [List.getElem_map, List.getElem_range]
      have hi : i < n := by simpa using h1
      have := hreads.2 i (by rw [← hn]; exact hi)
      have hposeq : posP B (dF.bNode, dF.bCur) + i = d0.bNode * B + d0.bCur + i := by
        unfold posP
        simp only []
        rw [hFb, hFbc]
      rw [hposeq]
      rw [this]
      simp
  · rw [hrw]
    have hit := succIt_iterate B n (dF.bNode, dF.bCur) (by rw [hFbc]; exact hbc)
    apply posP_inj B hit.2 (by show dF.eCur < B; rw [hFec]; exact hec)
    rw [hit.1]
    show posP B (dF.bNode, dF.bCur) + n = dF.eNode * B + dF.eCur
    unfold posP
    simp only []
    omega

theorem deque_range_roundtrip_witness :
    sizeD 2 (deque_from_range 2 [10, 20, 30]) = 3 ∧
      iterCollect 2 (deque_from_range 2 [10, 20, 30]) = [some 10, some 20, some 30] ∧
      (succIt 2)^[3]
          ((deque_from_range 2 [10, 20, 30]).bNode, (deque_from_range 2 [10, 20, 30]).bCur) =
        ((deque_from_range 2 [10, 20, 30]).eNode, (deque_from_range 2 [10, 20, 30]).eCur) :=
  deque_range_roundtrip 2 (by decide) ℕ [10, 20, 30]

end Deque

end TinyStl
